import Mathlib

/-!
Verification of `WBAugmenter_Python/WBAugmenter/WBEmulator.py` against its
natural-language specification.

The numeric code is embedded shallowly: floating-point arrays become
functions into `ℚ` (exact arithmetic), except the KNN blending weights,
which use `Real.exp`/`Real.sqrt` and are embedded over `ℝ`.  Fortran-order
(`order="F"`) reshapes are embedded as explicit index arithmetic
(`% / ·`), so the flatten/unflatten round trips of the source are proved,
not assumed.  The in-place clipping helper is embedded against a heap of
array references to capture its frame effect.
-/

/-- A `Fin (A * B)` index forces the left factor to be positive. -/
lemma pos_left_of_fin_mul {A B : ℕ} (p : Fin (A * B)) : 0 < A := by
  rcases Nat.eq_zero_or_pos A with h | h
  · exact absurd p.isLt (by simp [h])
  · exact h

/-- A `Fin (A * B)` index forces the right factor to be positive. -/
lemma pos_right_of_fin_mul {A B : ℕ} (p : Fin (A * B)) : 0 < B := by
  rcases Nat.eq_zero_or_pos B with h | h
  · exact absurd p.isLt (by simp [h])
  · exact h

/-! Embeddings of `outOfGamutClipping` (lines 225-229) and `changeWB` (lines 203-215).

`outOfGamutClipping` first executes `I[I > 1] = 1` and then `I[I < 0] = 0`.
As a value transform each entry goes through the upper clip and then the
lower clip; the two scalar steps are embedded separately so the sequential
masking of the source is visible. -/

/-- Upper masked assignment `I[I > 1] = 1` of `outOfGamutClipping`, per entry. -/
def clipAboveOne (x : ℚ) : ℚ := if 1 < x then 1 else x

/-- Lower masked assignment `I[I < 0] = 0` of `outOfGamutClipping`, per entry. -/
def clipBelowZero (x : ℚ) : ℚ := if x < 0 then 0 else x

/-- Source `kernelP9` (lines 218-222): per-pixel expansion
`(r, g, b, r*r, g*g, b*b, r*g, r*b, g*b)`. -/
def kernelP9 (v : Fin 3 → ℚ) : Fin 9 → ℚ :=
  ![v 0, v 1, v 2, v 0 * v 0, v 1 * v 1, v 2 * v 2, v 0 * v 1, v 0 * v 2, v 1 * v 2]

/-- Embedding of `np.reshape(input, (H*W, 3), order="F")` (lines 206-207): in Fortran
order the first axis varies fastest, so flat row `p` of an `(H, W, 3)`
array is the pixel at row `p % H`, column `p / H`. -/
def I_reshaped (H W : ℕ) (input : Fin H → Fin W → Fin 3 → ℚ)
    (p : Fin (H * W)) (c : Fin 3) : ℚ :=
  input ⟨p.val % H, Nat.mod_lt _ (pos_left_of_fin_mul p)⟩
    ⟨p.val / H, Nat.div_lt_of_lt_mul p.isLt⟩ c

/-- Fortran-order position of pixel `(i, j)` in the flattened `(H*W, 3)` array. -/
def flatIdx {H W : ℕ} (i : Fin H) (j : Fin W) : Fin (H * W) :=
  ⟨i.val + j.val * H, by
    calc i.val + j.val * H < H + j.val * H := Nat.add_lt_add_right i.isLt _
    _ = (j.val + 1) * H := by ring
    _ ≤ W * H := Nat.mul_le_mul_right H j.isLt
    _ = H * W := Nat.mul_comm W H⟩

/-- Flat output of `changeWB` before the final reshape (lines 208-211):
`out = outOfGamutClipping(np.dot(kernelP9(I_reshaped), m))`. -/
def changeWB_flat (H W : ℕ) (input : Fin H → Fin W → Fin 3 → ℚ)
    (m : Fin 9 → Fin 3 → ℚ) (p : Fin (H * W)) (c : Fin 3) : ℚ :=
  clipBelowZero (clipAboveOne (∑ k, kernelP9 (I_reshaped H W input p) k * m k c))

/-- Channel reversal performed by `cv2.cvtColor(out, cv2.COLOR_RGB2BGR)`
(line 214): for 3 channels this maps channel `c` to channel `2 - c`. -/
def bgrIdx (c : Fin 3) : Fin 3 := ⟨2 - c.val, by omega⟩

/-- Source `changeWB` (lines 203-215): flatten in Fortran order, expand with
`kernelP9`, multiply by the 9x3 mapping `m`, clip, reshape back to
`(H, W, 3)` in Fortran order (entry `(i, j, c)` comes from flat row
`i + j*H`, column `c`), then convert RGB to BGR. -/
def changeWB (H W : ℕ) (input : Fin H → Fin W → Fin 3 → ℚ)
    (m : Fin 9 → Fin 3 → ℚ) (i : Fin H) (j : Fin W) (c : Fin 3) : ℚ :=
  changeWB_flat H W input m (flatIdx i j) (bgrIdx c)

/-- The Fortran-order flatten/unflatten round trip of `changeWB` recovers
each pixel: flat row `i + j*H` is pixel `(i, j)`. -/
lemma I_reshaped_flatIdx (H W : ℕ) (input : Fin H → Fin W → Fin 3 → ℚ)
    (i : Fin H) (j : Fin W) :
    I_reshaped H W input (flatIdx i j) = input i j := by
  have hH : 0 < H := i.pos
  funext c
  have h1 : (flatIdx i j).val % H = i.val := by
    show (i.val + j.val * H) % H = i.val
    rw [Nat.add_mul_mod_self_right, Nat.mod_eq_of_lt i.isLt]
  have h2 : (flatIdx i j).val / H = j.val := by
    show (i.val + j.val * H) / H = j.val
    rw [Nat.add_mul_div_right _ _ hH, Nat.div_eq_of_lt i.isLt, Nat.zero_add]
  show input ⟨(flatIdx i j).val % H, _⟩ ⟨(flatIdx i j).val / H, _⟩ c = input i j c
  congr 1 <;> first
  | exact Fin.ext h1
  | exact Fin.ext h2

/-- C6 (amended): the pixel at `(i, j)` of `changeWB`'s output is the
9-term kernel expansion of the input pixel at `(i, j)` multiplied by `m`,
hard-clipped to `[0,1]`, but read at the *reversed* channel `2 - c`: the
final `cv2.cvtColor(..., COLOR_RGB2BGR)` of line 214 reverses the channel
order of the returned array.  The spatial row/column layout is preserved
exactly. -/
theorem changeWB_pixelwise (H W : ℕ) (input : Fin H → Fin W → Fin 3 → ℚ)
    (m : Fin 9 → Fin 3 → ℚ) (i : Fin H) (j : Fin W) (c : Fin 3) :
    changeWB H W input m i j c =
      clipBelowZero (clipAboveOne (∑ k, kernelP9 (input i j) k * m k (bgrIdx c))) := by
  unfold changeWB changeWB_flat
  rw [I_reshaped_flatIdx]

/-- Concrete 1x1 image whose single pixel is `(1, 0, 0)`. -/
def cexImage : Fin 1 → Fin 1 → Fin 3 → ℚ := fun _ _ c => if c = 0 then 1 else 0

/-- Concrete mapping matrix sending the kernel vector to `(r, 0, 0)`. -/
def cexM : Fin 9 → Fin 3 → ℚ := fun k c => if k = 0 ∧ c = 0 then 1 else 0

/-- C6 (counterexample): at the 1x1 image with pixel `(1, 0, 0)` and a
mapping matrix whose product with the kernel vector is `(1, 0, 0)`, the
output pixel's channel 0 is `0`, not the claimed clipped product `1`: the
RGB-to-BGR conversion on line 214 has reversed the channels. -/
theorem changeWB_channel_swap_counterexample :
    changeWB 1 1 cexImage cexM 0 0 0 ≠
      clipBelowZero (clipAboveOne (∑ k, kernelP9 (cexImage 0 0) k * cexM k 0)) := by
  have hL : changeWB 1 1 cexImage cexM 0 0 0 = 0 := by
    show clipBelowZero (clipAboveOne
      (∑ k, kernelP9 (I_reshaped 1 1 cexImage (flatIdx 0 0)) k * cexM k (bgrIdx 0))) = 0
    norm_num [I_reshaped, flatIdx, bgrIdx, cexImage, cexM, kernelP9,
      clipAboveOne, clipBelowZero, Fin.sum_univ_succ, Fin.ext_iff]
  have hR : clipBelowZero (clipAboveOne (∑ k, kernelP9 (cexImage 0 0) k * cexM k 0)) = 1 := by
    norm_num [cexImage, cexM, kernelP9, clipAboveOne, clipBelowZero,
      Fin.sum_univ_succ, Fin.ext_iff]
  rw [hL, hR]
  norm_num

/-! In-place semantics of `outOfGamutClipping` (lines 225-229).

The source function executes two masked assignments on its argument array
and returns the argument itself.  To capture the frame effect, arrays live
in a heap of references (`ℕ`-indexed flat `List ℚ` buffers); the function
is a heap transformer returning the heap after both assignments together
with the returned reference. -/

/-- A store of array buffers, indexed by reference. -/
def Heap : Type := ℕ → List ℚ

/-- Overwrite the buffer held at reference `r`. -/
def heapUpdate (h : Heap) (r : ℕ) (v : List ℚ) : Heap :=
  fun q => if q = r then v else h q

/-- The masked assignment `I[I > 1] = 1` as a whole-buffer transform. -/
def maskGtOne (l : List ℚ) : List ℚ := l.map clipAboveOne

/-- The masked assignment `I[I < 0] = 0` as a whole-buffer transform. -/
def maskLtZero (l : List ℚ) : List ℚ := l.map clipBelowZero

/-- Source `outOfGamutClipping` (lines 225-229): mutate the buffer at `r` by the
two masked assignments, in source order, and return the same reference. -/
def outOfGamutClipping (h : Heap) (r : ℕ) : Heap × ℕ :=
  let h1 := heapUpdate h r (maskGtOne (h r))
  let h2 := heapUpdate h1 r (maskLtZero (h1 r))
  (h2, r)

/-- C10: `outOfGamutClipping` mutates its argument in place and returns the
very same array reference: the returned reference is the argument `r`, the
buffer at `r` afterwards is the argument buffer with entries above 1
overwritten by 1 and entries below 0 by 0, no fresh buffer is written, and
every other reference is untouched. -/
theorem outOfGamutClipping_inplace (h : Heap) (r q : ℕ) (hq : q ≠ r) :
    (outOfGamutClipping h r).2 = r ∧
    (outOfGamutClipping h r).1 r = maskLtZero (maskGtOne (h r)) ∧
    (outOfGamutClipping h r).1 q = h q := by
  refine ⟨rfl, ?_, ?_⟩
  · simp [outOfGamutClipping, heapUpdate]
  · simp [outOfGamutClipping, heapUpdate, hq]

/-- A concrete two-buffer heap: reference 0 holds `[2, -1, 1/2]`. -/
def wHeap : Heap := fun q => if q = 0 then [2, -1, (1 : ℚ)/2] else []

/-- C10 (witness): on the concrete heap, the call on reference 0 returns
reference 0, its buffer is clipped to `[1, 0, 1/2]`, and reference 1 is
untouched. -/
theorem outOfGamutClipping_inplace_witness :
    (outOfGamutClipping wHeap 0).2 = 0 ∧
    (outOfGamutClipping wHeap 0).1 0 = [1, 0, (1 : ℚ)/2] ∧
    (outOfGamutClipping wHeap 0).1 1 = [] := by
  obtain ⟨h1, h2, h3⟩ := outOfGamutClipping_inplace wHeap 0 1 (by decide)
  refine ⟨h1, ?_, ?_⟩
  · rw [h2]
    norm_num [wHeap, maskGtOne, maskLtZero, clipAboveOne, clipBelowZero]
  · rw [h3]
    simp [wHeap]

/-! Mapping-function synthesis (lines 112-118).

For each selected style index `ind`, the source blends the mapping rows of
the `K` retrieved exemplars:

  `mf = sum(reshape(repmat(weightsH, 1, 27), ...) * mappingFuncs[(idH - 1) * 10 + ind, :])`
  `mf = mf.reshape(9, 3, order="F")`

The `repmat`/`reshape` of the weights only replicates the scalar weight of
neighbor `k` across that neighbor's 27 mapping values, so the product is
scalar weighting of each selected row; the sum is over the `K` neighbors.
The mapping table (loaded from `params/mappingFuncs.npy`, `10` consecutive
style rows per exemplar) is a parameter `table : ℕ → ℕ → ℚ` of the
embedding, read through numpy indexing: a negative row index `-M ≤ i < 0`
wraps to `M + i` where `M = N * 10` is the number of rows. -/

/-- numpy index wrap for a table of `M` rows: an index `i` with
`-M ≤ i < M` reads row `i mod M`. -/
def wrapIdx (M : ℕ) (i : ℤ) : ℕ := (i % (M : ℤ)).toNat

/-- Row index the code reads for neighbor exemplar `e` and style `s`
(line 117): `(idH - 1) * 10 + ind`. -/
def codeRowIdx (e s : ℕ) : ℤ := ((e : ℤ) - 1) * 10 + (s : ℤ)

/-- Row index the specification prescribes: `e * 10 + s`. -/
def specRowIdx (e s : ℕ) : ℕ := e * 10 + s

/-- Embedding of `mf.reshape(9, 3, order="F")` (line 118) on a 27-vector: entry `(a, b)`
is value `a + 9*b`, so the first 9 values form column 0. -/
def reshapeF9x3 (v : ℕ → ℚ) (a : Fin 9) (b : Fin 3) : ℚ := v (a.val + 9 * b.val)

/-- The blended mapping matrix the code computes (lines 115-118) for a
table of `N` exemplars, neighbor indices `idH`, blending weights `w` and
style `s`. -/
def generateWbsRGB_mf (N : ℕ) (table : ℕ → ℕ → ℚ) (Kn : ℕ)
    (idH : Fin Kn → ℕ) (w : Fin Kn → ℚ) (s : ℕ) (a : Fin 9) (b : Fin 3) : ℚ :=
  reshapeF9x3 (fun cc => ∑ k, w k * table (wrapIdx (N * 10) (codeRowIdx (idH k) s)) cc) a b

/-- The blended mapping matrix claim C1 describes: same weighted sum but
over rows `e * 10 + s`. -/
def generateWbsRGB_mf_claimed (_N : ℕ) (table : ℕ → ℕ → ℚ) (Kn : ℕ)
    (idH : Fin Kn → ℕ) (w : Fin Kn → ℚ) (s : ℕ) (a : Fin 9) (b : Fin 3) : ℚ :=
  reshapeF9x3 (fun cc => ∑ k, w k * table (specRowIdx (idH k) s) cc) a b

/-- Mapping table over `N = 2` exemplars whose row `r` is constantly `r`,
so the row a blend reads is visible in the output. -/
def cexTable : ℕ → ℕ → ℚ := fun r _ => (r : ℚ)

/-- C1: at a 2-exemplar table with a single neighbor of exemplar index 0,
weight 1 and style 0, line 117 reads row `(0 - 1) * 10 + 0 = -10`, which
numpy wraps to row `10` (the *last* exemplar's style-0 row), instead of
row `0 * 10 + 0 = 0` required by the claim; the blended matrices differ
(entry `(0,0)` is `10` instead of `0`). -/
theorem generateWbsRGB_mf_off_by_one :
    generateWbsRGB_mf 2 cexTable 1 (fun _ => 0) (fun _ => 1) 0 0 0 = 10 ∧
    generateWbsRGB_mf_claimed 2 cexTable 1 (fun _ => 0) (fun _ => 1) 0 0 0 = 0 ∧
    generateWbsRGB_mf 2 cexTable 1 (fun _ => 0) (fun _ => 1) 0 0 0 ≠
      generateWbsRGB_mf_claimed 2 cexTable 1 (fun _ => 0) (fun _ => 1) 0 0 0 := by
  have hw : wrapIdx (2 * 10) (codeRowIdx 0 0) = 10 := by decide
  refine ⟨?_, ?_, ?_⟩ <;>
    norm_num [generateWbsRGB_mf, generateWbsRGB_mf_claimed, reshapeF9x3, cexTable,
      hw, specRowIdx, Fin.sum_univ_succ]

/-! Degenerate images in `rgbuv_hist` (lines 56-81).

Line 64 keeps only pixels with all three channels strictly positive.  Each
histogram layer accumulates the per-pixel intensity into 2-D bins, is
normalized by its own total (line 79-80: `hist / norm_`), and square-rooted.
The binning geometry (log-ratios, bin edges) and the intensity (a Euclidean
norm) involve `log`/`sqrt`, so they are abstracted as *universally
quantified* parameters `binOf` (which bin, if any, a pixel falls into) and
`inten` (the pixel's accumulation weight); nothing about them is needed,
because with no surviving pixel every bin is zero for every choice.  The
division of line 80 is embedded as `fdiv`, with `none` standing for the
non-finite float (`0/0 = NaN`) that numpy produces without raising; the
subsequent `np.sqrt` maps NaN to NaN, so `none` is preserved.  The source
raises nothing: the embedded function is total and returns the tensor. -/

/-- Line 64, `I_reshaped = I[(I > 0).all(axis=2)]`: keep the pixels whose
three channels are all strictly positive. -/
def positivePixels (I : List (Fin 3 → ℚ)) : List (Fin 3 → ℚ) :=
  I.filter fun p => decide (0 < p 0) && decide (0 < p 1) && decide (0 < p 2)

/-- Accumulated weight of bin `(a, b)` of layer `i` (lines 76-78): total
intensity of the surviving pixels that fall into that bin. -/
def histBin (n : ℕ) (I : List (Fin 3 → ℚ))
    (binOf : (Fin 3 → ℚ) → Fin 3 → Option (Fin n × Fin n))
    (inten : (Fin 3 → ℚ) → ℚ) (i : Fin 3) (a b : Fin n) : ℚ :=
  (((positivePixels I).filter fun p => decide (binOf p i = some (a, b))).map inten).sum

/-- Line 79, `norm_ = hist[:, :, i].sum()`. -/
def histNorm (n : ℕ) (I : List (Fin 3 → ℚ))
    (binOf : (Fin 3 → ℚ) → Fin 3 → Option (Fin n × Fin n))
    (inten : (Fin 3 → ℚ) → ℚ) (i : Fin 3) : ℚ :=
  ∑ a : Fin n, ∑ b : Fin n, histBin n I binOf inten i a b

/-- IEEE division as numpy performs it on line 80: a zero denominator
yields a non-finite value (`0/0` is NaN), modelled as `none`; no error is
raised. -/
def fdiv (x y : ℚ) : Option ℚ := if y = 0 then none else some (x / y)

/-- The normalized histogram layer of line 80 before the square root
(`np.sqrt` maps NaN to NaN, so `none` entries stay `none`). -/
def rgbuvHistNormalized (n : ℕ) (I : List (Fin 3 → ℚ))
    (binOf : (Fin 3 → ℚ) → Fin 3 → Option (Fin n × Fin n))
    (inten : (Fin 3 → ℚ) → ℚ) (i : Fin 3) (a b : Fin n) : Option ℚ :=
  fdiv (histBin n I binOf inten i a b) (histNorm n I binOf inten i)

/-- C2 (amended): if no pixel passes the strict-positivity filter on
line 64, then every bin and every layer normalizer is zero, and the
normalization of line 80 divides by zero, so `rgbuv_hist` silently
returns a histogram tensor whose every entry is non-finite (NaN); no
`DegenerateImage` error exists in the code. -/
theorem rgbuv_hist_degenerate_nan (n : ℕ) (I : List (Fin 3 → ℚ))
    (binOf : (Fin 3 → ℚ) → Fin 3 → Option (Fin n × Fin n))
    (inten : (Fin 3 → ℚ) → ℚ) (h : positivePixels I = []) :
    (∀ i, histNorm n I binOf inten i = 0) ∧
    (∀ i a b, rgbuvHistNormalized n I binOf inten i a b = none) := by
  have hb : ∀ i a b, histBin n I binOf inten i a b = 0 := by
    intro i a b
    simp [histBin, h]
  have hn : ∀ i, histNorm n I binOf inten i = 0 := by
    intro i
    simp [histNorm, hb]
  exact ⟨hn, fun i a b => by simp [rgbuvHistNormalized, fdiv, hn i]⟩

/-- A 2-pixel all-zero RGB image. -/
def allZeroImage : List (Fin 3 → ℚ) := List.replicate 2 fun _ => 0

/-- A concrete bin assignment (everything in bin `(0, 0)` of a 60x60 grid). -/
def cBin : (Fin 3 → ℚ) → Fin 3 → Option (Fin 60 × Fin 60) := fun _ _ => some (0, 0)

/-- A concrete accumulation weight (channel sum). -/
def cInt : (Fin 3 → ℚ) → ℚ := fun p => p 0 + p 1 + p 2

/-- C2 (counterexample): on the all-zero image the positivity filter keeps
nothing, the layer normalizer is `0`, and the embedded `rgbuv_hist`
normalization *returns* a NaN entry (`none`) at bin `(0,0)` of layer 0 —
the claimed `DegenerateImage` error is never raised and a NaN-filled
tensor is the produced result. -/
theorem rgbuv_hist_allzero_nan :
    positivePixels allZeroImage = [] ∧
    histNorm 60 allZeroImage cBin cInt 0 = 0 ∧
    rgbuvHistNormalized 60 allZeroImage cBin cInt 0 0 0 = none := by
  have h0 : positivePixels allZeroImage = [] := by
    simp [positivePixels, allZeroImage]
  have hb : ∀ a b : Fin 60, histBin 60 allZeroImage cBin cInt 0 a b = 0 := by
    intro a b
    simp [histBin, h0]
  have hn : histNorm 60 allZeroImage cBin cInt 0 = 0 := by
    simp [histNorm, hb]
  exact ⟨h0, hn, by simp [rgbuvHistNormalized, fdiv, hn]⟩

/-- C2 (witness): the degenerate-rejection theorem applied to the concrete
all-zero image, at layer 1 and bin `(2, 3)`. -/
theorem rgbuv_hist_degenerate_nan_witness :
    rgbuvHistNormalized 60 allZeroImage cBin cInt 1 2 3 = none :=
  (rgbuv_hist_degenerate_nan 60 allZeroImage cBin cInt
    (by simp [positivePixels, allZeroImage])).2 1 2 3

/-! Orchestration of `generateWbsRGB` (lines 83-120).

The entry validation is the single `assert (outNum <= 10)` of line 85.
Style selection (lines 89-97): for `outNum < 10` the styles are a random
sample without replacement — embedded as an explicit `sample` argument,
the value `rnd.sample(self.wb_photo_finishing, outNum)` returned by the
process-wide random source (its contract: `outNum` distinct catalog
entries) — and `inds` are their catalog positions; for `outNum = 10` the
whole catalog is used in order.  The loop of lines 112-119 produces one
`changeWB` output per selected index; the per-style blended matrix
(studied separately as `generateWbsRGB_mf`) enters through the map
`mfFor`. -/

/-- The fixed 10-style catalog `wb_photo_finishing` (lines 38-40). -/
def wb_photo_finishing : List String :=
  ["_F_AS", "_F_CS", "_S_AS", "_S_CS", "_T_AS", "_T_CS", "_C_AS", "_C_CS",
   "_D_AS", "_D_CS"]

/-- Line 85, `assert (outNum <= 10)`: the only entry validation of
`generateWbsRGB`.  Python's `assert` raises iff the condition is false. -/
def generateWbsRGBAssert (outNum : ℤ) : Bool := decide (outNum ≤ 10)

/-- Source `generateWbsRGB` after feature extraction (lines 89-120): style
selection and the per-style image loop, returning the synthesized images
and the selected style labels. -/
def generateWbsRGB (H W : ℕ) (input : Fin H → Fin W → Fin 3 → ℚ)
    (mfFor : ℕ → Fin 9 → Fin 3 → ℚ) (outNum : ℕ) (sample : List String) :
    List (Fin H → Fin W → Fin 3 → ℚ) × List String :=
  let wb_pf := if outNum < wb_photo_finishing.length then sample
               else wb_photo_finishing
  let inds := if outNum < wb_photo_finishing.length
              then sample.map fun t => wb_photo_finishing.indexOf t
              else List.range wb_photo_finishing.length
  (inds.map fun ind => changeWB H W input (mfFor ind), wb_pf)

/-- All-zero 1x1 image, as orchestrator input. -/
def zeroImg : Fin 1 → Fin 1 → Fin 3 → ℚ := fun _ _ _ => 0

/-- All-zero mapping matrices for every style. -/
def zeroMf : ℕ → Fin 9 → Fin 3 → ℚ := fun _ _ _ => 0

/-- C3 (counterexample): `requestedCount = 0` lies outside `[1, 10]`, yet
the only entry check (line 85) accepts it, and the pipeline runs to
completion, returning an empty image list and empty label list instead of
raising `InvalidRequestedCount`. -/
theorem generateWbsRGB_outnum_zero_accepted :
    generateWbsRGBAssert 0 = true ∧ ¬ (1 ≤ (0 : ℤ)) ∧
    (generateWbsRGB 1 1 zeroImg zeroMf 0 []).1 = [] ∧
    (generateWbsRGB 1 1 zeroImg zeroMf 0 []).2 = [] := by
  refine ⟨rfl, by decide, ?_, ?_⟩ <;> simp [generateWbsRGB]

/-- C3 (amended): the entry validation of `generateWbsRGB` accepts exactly
the requested counts `outNum ≤ 10`; no lower bound is checked, so `0` and
negative counts pass the entry check (computation then begins; `0` returns
an empty result and negative counts only fail later inside
`rnd.sample`). -/
theorem generateWbsRGB_assert_iff_le_ten (outNum : ℤ) :
    generateWbsRGBAssert outNum = true ↔ outNum ≤ 10 := by
  simp [generateWbsRGBAssert]

/-- C7: for `1 ≤ outNum ≤ 10` (with the `rnd.sample` contract that the
drawn sample has `outNum` entries when `outNum < 10`), `generateWbsRGB`
returns exactly `outNum` images and `outNum` labels, every returned image
is a `changeWB` output over the same `H x W x 3` grid as the input, and
`outNum = 10` returns the full 10-label catalog, each label exactly once
(the catalog has no duplicates). -/
theorem generateWbsRGB_count_labels (H W : ℕ) (input : Fin H → Fin W → Fin 3 → ℚ)
    (mfFor : ℕ → Fin 9 → Fin 3 → ℚ) (outNum : ℕ) (sample : List String)
    (h1 : 1 ≤ outNum) (h2 : outNum ≤ 10)
    (hs : outNum < 10 → sample.length = outNum) :
    ((generateWbsRGB H W input mfFor outNum sample).1.length = outNum ∧
     (generateWbsRGB H W input mfFor outNum sample).2.length = outNum) ∧
    (∀ img ∈ (generateWbsRGB H W input mfFor outNum sample).1,
      ∃ ind, img = changeWB H W input (mfFor ind)) ∧
    (outNum = 10 →
      (generateWbsRGB H W input mfFor outNum sample).2 = wb_photo_finishing ∧
      wb_photo_finishing.Nodup) := by
  have hcat : wb_photo_finishing.length = 10 := rfl
  by_cases hlt : outNum < 10
  · refine ⟨⟨?_, ?_⟩, ?_, ?_⟩
    · simp [generateWbsRGB, hcat, hlt, hs hlt]
    · simp [generateWbsRGB, hcat, hlt, hs hlt]
    · intro img himg
      simp only [generateWbsRGB, hcat, hlt, if_pos, List.mem_map] at himg
      obtain ⟨ind, -, hind⟩ := himg
      exact ⟨ind, hind.symm⟩
    · intro h10
      omega
  · have h10 : outNum = 10 := by omega
    refine ⟨⟨?_, ?_⟩, ?_, ?_⟩
    · simp [generateWbsRGB, hcat, hlt, h10]
    · simp [generateWbsRGB, hcat, hlt, h10]
    · intro img himg
      simp only [generateWbsRGB, hcat, hlt, if_neg, List.mem_map] at himg
      obtain ⟨ind, -, hind⟩ := himg
      exact ⟨ind, hind.symm⟩
    · intro _
      refine ⟨by simp [generateWbsRGB, hcat, hlt], by decide⟩

/-- C7 (witness): at a concrete 1x1 input with `outNum = 10`, the
orchestrator returns 10 images and the full label catalog. -/
theorem generateWbsRGB_count_labels_witness :
    (generateWbsRGB 1 1 zeroImg zeroMf 10 []).1.length = 10 ∧
    (generateWbsRGB 1 1 zeroImg zeroMf 10 []).2 = wb_photo_finishing :=
  ⟨(generateWbsRGB_count_labels 1 1 zeroImg zeroMf 10 [] (by decide) (by decide)
      (fun h => absurd h (by decide))).1.1,
   ((generateWbsRGB_count_labels 1 1 zeroImg zeroMf 10 [] (by decide) (by decide)
      (fun h => absurd h (by decide))).2.2 rfl).1⟩

/-! Embedding of `encode` (lines 42-54).

For each channel `c` the source computes
`reshape(transpose(hist[:, :, c]), (1, n*n), order="F")`.  Reading the
transposed matrix in Fortran order (first axis fastest) visits
`hist[0,0,c], hist[0,1,c], ..., hist[0,n-1,c], hist[1,0,c], ...`, i.e. the
*row-major* order of `hist[:, :, c]`.  `np.append` then concatenates the
three channel vectors (channel-major), the bias is subtracted from the
concatenation, and the result is multiplied on the right by the encoder
weight matrix. -/

/-- Embedding of `np.transpose` of an `n x n` matrix. -/
def matTransposeQ (n : ℕ) (A : Fin n → Fin n → ℚ) (a b : Fin n) : ℚ := A b a

/-- Embedding of `np.reshape(A, (1, n*n), order="F")`: Fortran-order read of an
`n x n` matrix, position `k` holding `A[k % n, k / n]`. -/
def reshapeFvec (n : ℕ) (A : Fin n → Fin n → ℚ) (k : Fin (n * n)) : ℚ :=
  A ⟨k.val % n, Nat.mod_lt _ (pos_left_of_fin_mul k)⟩
    ⟨k.val / n, Nat.div_lt_of_lt_mul k.isLt⟩

/-- Lines 44-49: the per-channel flattened histogram,
`reshape(transpose(hist[:, :, c]), (1, n*n), order="F")`. -/
def histChannelFlat (n : ℕ) (hist : Fin n → Fin n → Fin 3 → ℚ) (c : Fin 3) :
    Fin (n * n) → ℚ :=
  reshapeFvec n (matTransposeQ n fun a b => hist a b c)

/-- Lines 50-51, `np.append(histR, [histG, histB])`: channel-major
concatenation of the three flattened channels. -/
def histFlat (n : ℕ) (hist : Fin n → Fin n → Fin 3 → ℚ)
    (t : Fin (3 * (n * n))) : ℚ :=
  histChannelFlat n hist
    ⟨t.val / (n * n), Nat.div_lt_of_lt_mul (lt_of_lt_of_eq t.isLt (Nat.mul_comm 3 (n * n)))⟩
    ⟨t.val % (n * n), Nat.mod_lt _ (pos_right_of_fin_mul t)⟩

/-- Lines 52-53: `feature = np.dot(hist_reshaped - encoderBias.T,
encoderWeights)`. -/
def encode (n F2 : ℕ) (hist : Fin n → Fin n → Fin 3 → ℚ)
    (bias : Fin (3 * (n * n)) → ℚ) (wts : Fin (3 * (n * n)) → Fin F2 → ℚ)
    (f : Fin F2) : ℚ :=
  ∑ t, (histFlat n hist t - bias t) * wts t f

/-- The flattening claim C8 describes: channel-major, *column-major*
within each channel (position `k` of channel `c` holding
`hist[k % n, k / n, c]`, i.e. the Fortran-order read of the channel
histogram itself, without the transpose). -/
def histFlatClaimed (n : ℕ) (hist : Fin n → Fin n → Fin 3 → ℚ)
    (t : Fin (3 * (n * n))) : ℚ :=
  reshapeFvec n
    (fun a b =>
      hist a b ⟨t.val / (n * n), Nat.div_lt_of_lt_mul (lt_of_lt_of_eq t.isLt (Nat.mul_comm 3 (n * n)))⟩)
    ⟨t.val % (n * n), Nat.mod_lt _ (pos_right_of_fin_mul t)⟩

/-- Variant of `encode` as claim C8 describes it, with the column-major flatten. -/
def encodeClaimed (n F2 : ℕ) (hist : Fin n → Fin n → Fin 3 → ℚ)
    (bias : Fin (3 * (n * n)) → ℚ) (wts : Fin (3 * (n * n)) → Fin F2 → ℚ)
    (f : Fin F2) : ℚ :=
  ∑ t, (histFlatClaimed n hist t - bias t) * wts t f

/-- The amended flatten: channel-major, *row-major* within each channel
(position `k` of channel `c` holds `hist[k / n, k % n, c]`). -/
def histFlatRowMajor (n : ℕ) (hist : Fin n → Fin n → Fin 3 → ℚ)
    (t : Fin (3 * (n * n))) : ℚ :=
  hist ⟨t.val % (n * n) / n,
        Nat.div_lt_of_lt_mul (Nat.mod_lt _ (pos_right_of_fin_mul t))⟩
    ⟨t.val % (n * n) % n, Nat.mod_lt _ (by
        rcases Nat.eq_zero_or_pos n with h | h
        · exact absurd t.isLt (by simp [h])
        · exact h)⟩
    ⟨t.val / (n * n), Nat.div_lt_of_lt_mul (lt_of_lt_of_eq t.isLt (Nat.mul_comm 3 (n * n)))⟩

/-- C8 (amended): `encode` flattens the three channel histograms
channel-major and row-major within each channel (the transpose on
lines 44-48 followed by the Fortran-order reshape is exactly the
row-major read), subtracts the bias, and multiplies by the projection
weight matrix. -/
theorem encode_rowmajor (n F2 : ℕ) (hist : Fin n → Fin n → Fin 3 → ℚ)
    (bias : Fin (3 * (n * n)) → ℚ) (wts : Fin (3 * (n * n)) → Fin F2 → ℚ)
    (f : Fin F2) :
    encode n F2 hist bias wts f =
      ∑ t, (histFlatRowMajor n hist t - bias t) * wts t f := by
  unfold encode histFlat histChannelFlat reshapeFvec matTransposeQ histFlatRowMajor
  rfl

/-- A concrete 2x2x3 histogram tensor with a single marked entry at
row 0, column 1 of channel 0. -/
def cexHist : Fin 2 → Fin 2 → Fin 3 → ℚ :=
  fun a b c => if a = 0 ∧ b = 1 ∧ c = 0 then 5 else 0

/-- Zero bias, so the flatten order is exposed directly. -/
def cexBias : Fin (3 * (2 * 2)) → ℚ := fun _ => 0

/-- Weights projecting onto flat position 1. -/
def cexWts : Fin (3 * (2 * 2)) → Fin 1 → ℚ := fun t _ => if t.val = 1 then 1 else 0

/-- C8 (counterexample): at the marked histogram, zero bias, and the
projection onto flat position 1, the source `encode` yields `5` (position
1 is `hist[0, 1, 0]`, the row-major neighbor) while the claimed
column-major flatten yields `0` (it would put `hist[1, 0, 0]` there):
the claim's flatten order contradicts lines 44-49. -/
theorem encode_flatten_counterexample :
    encode 2 1 cexHist cexBias cexWts 0 = 5 ∧
    encodeClaimed 2 1 cexHist cexBias cexWts 0 = 0 ∧
    encode 2 1 cexHist cexBias cexWts 0 ≠ encodeClaimed 2 1 cexHist cexBias cexWts 0 := by
  refine ⟨?_, ?_, ?_⟩ <;>
    norm_num [encode, encodeClaimed, histFlat, histFlatClaimed, histChannelFlat,
      reshapeFvec, matTransposeQ, cexHist, cexBias, cexWts,
      Fin.sum_univ_succ, Fin.ext_iff]

/-! Embedding of `im2double` (lines 232-234).

`cv2.normalize(im.astype('float'), None, 0.0, 1.0, cv2.NORM_MINMAX)` maps
the global minimum of the array to 0 and the global maximum to 1:
`out = (x - min) / (max - min)`.  When the value range is empty (OpenCV
guards `max - min > DBL_EPSILON`, which on integer-valued `uint8` inputs
is exactly `min < max`), the scale is set to 0 and the output is the
constant lower bound 0.  The `uint8` image is embedded as a flat list of
integers. -/

/-- Global minimum of a pixel list (0 for the empty list; `cv2.minMaxLoc`
is only reached on nonempty arrays). -/
def listMin : List ℤ → ℤ
  | [] => 0
  | x :: xs => xs.foldl min x

/-- Global maximum of a pixel list. -/
def listMax : List ℤ → ℤ
  | [] => 0
  | x :: xs => xs.foldl max x

/-- Source `im2double` (lines 232-234): min-max normalization to `[0, 1]`, with
OpenCV's degenerate-range guard producing the constant 0. -/
def im2double (l : List ℤ) : List ℚ :=
  if listMin l < listMax l then
    l.map fun x : ℤ => ((x : ℚ) - (listMin l : ℚ)) / ((listMax l : ℚ) - (listMin l : ℚ))
  else l.map fun _ : ℤ => (0 : ℚ)

/-- A positive-scale affine map commutes with binary `min`. -/
lemma min_affine (a b x y : ℤ) (ha : 0 ≤ a) :
    min (a * x + b) (a * y + b) = a * min x y + b := by
  rcases le_total x y with h | h
  · rw [min_eq_left h, min_eq_left (add_le_add_right (mul_le_mul_of_nonneg_left h ha) b)]
  · rw [min_eq_right h, min_eq_right (add_le_add_right (mul_le_mul_of_nonneg_left h ha) b)]

/-- A positive-scale affine map commutes with binary `max`. -/
lemma max_affine (a b x y : ℤ) (ha : 0 ≤ a) :
    max (a * x + b) (a * y + b) = a * max x y + b := by
  rcases le_total x y with h | h
  · rw [max_eq_right h, max_eq_right (add_le_add_right (mul_le_mul_of_nonneg_left h ha) b)]
  · rw [max_eq_left h, max_eq_left (add_le_add_right (mul_le_mul_of_nonneg_left h ha) b)]

/-- A positive-scale affine map commutes with the `min` fold. -/
lemma foldl_min_affine (a b : ℤ) (ha : 0 ≤ a) :
    ∀ (xs : List ℤ) (x : ℤ),
      (xs.map fun y => a * y + b).foldl min (a * x + b) = a * xs.foldl min x + b := by
  intro xs
  induction xs with
  | nil => intro x; rfl
  | cons y ys ih =>
    intro x
    show (ys.map fun y => a * y + b).foldl min (min (a * x + b) (a * y + b)) = _
    rw [min_affine a b x y ha, ih (min x y)]
    rfl

/-- A positive-scale affine map commutes with the `max` fold. -/
lemma foldl_max_affine (a b : ℤ) (ha : 0 ≤ a) :
    ∀ (xs : List ℤ) (x : ℤ),
      (xs.map fun y => a * y + b).foldl max (a * x + b) = a * xs.foldl max x + b := by
  intro xs
  induction xs with
  | nil => intro x; rfl
  | cons y ys ih =>
    intro x
    show (ys.map fun y => a * y + b).foldl max (max (a * x + b) (a * y + b)) = _
    rw [max_affine a b x y ha, ih (max x y)]
    rfl

/-- Value of `listMin` under a positive-scale affine map of a nonempty list. -/
lemma listMin_affine (a b : ℤ) (ha : 0 ≤ a) (x : ℤ) (xs : List ℤ) :
    listMin ((x :: xs).map fun y => a * y + b) = a * listMin (x :: xs) + b := by
  show (xs.map fun y => a * y + b).foldl min (a * x + b) = a * xs.foldl min x + b
  exact foldl_min_affine a b ha xs x

/-- Value of `listMax` under a positive-scale affine map of a nonempty list. -/
lemma listMax_affine (a b : ℤ) (ha : 0 ≤ a) (x : ℤ) (xs : List ℤ) :
    listMax ((x :: xs).map fun y => a * y + b) = a * listMax (x :: xs) + b := by
  show (xs.map fun y => a * y + b).foldl max (a * x + b) = a * xs.foldl max x + b
  exact foldl_max_affine a b ha xs x

/-- Folding `min` over copies of the start value is the start value. -/
lemma foldl_min_replicate (c : ℤ) : ∀ k, (List.replicate k c).foldl min c = c := by
  intro k
  induction k with
  | zero => rfl
  | succ k ih =>
    show (List.replicate k c).foldl min (min c c) = c
    rw [min_self]
    exact ih

/-- Folding `max` over copies of the start value is the start value. -/
lemma foldl_max_replicate (c : ℤ) : ∀ k, (List.replicate k c).foldl max c = c := by
  intro k
  induction k with
  | zero => rfl
  | succ k ih =>
    show (List.replicate k c).foldl max (max c c) = c
    rw [max_self]
    exact ih

/-- C9 (amended): `im2double` is min-max normalization by the image's own
extreme values: on a non-constant image every entry becomes
`(x - min) / (max - min)`; an affine re-encoding with *strictly positive*
scale leaves the internal representation unchanged; and a constant image
maps to all zeros. -/
theorem im2double_minmax_props (l : List ℤ) (a b : ℤ) (ha : 0 < a) (k : ℕ) (c : ℤ) :
    (listMin l < listMax l →
      im2double l =
        l.map fun x : ℤ => ((x : ℚ) - (listMin l : ℚ)) / ((listMax l : ℚ) - (listMin l : ℚ))) ∧
    im2double (l.map fun x => a * x + b) = im2double l ∧
    im2double (List.replicate k c) = List.replicate k 0 := by
  refine ⟨fun h => by rw [im2double, if_pos h], ?_, ?_⟩
  · match l with
    | [] => rfl
    | x :: xs =>
      have hmin := listMin_affine a b ha.le x xs
      have hmax := listMax_affine a b ha.le x xs
      have haq : ((a : ℚ)) ≠ 0 := by
        exact_mod_cast ha.ne'
      by_cases hlt : listMin (x :: xs) < listMax (x :: xs)
      · have hlt' : listMin ((x :: xs).map fun y => a * y + b) <
            listMax ((x :: xs).map fun y => a * y + b) := by
          rw [hmin, hmax, add_lt_add_iff_right, mul_lt_mul_left ha]
          exact hlt
        rw [im2double, im2double, if_pos hlt', if_pos hlt, hmin, hmax, List.map_map]
        congr 1
        funext z
        show ((a * z + b : ℤ) - ((a * listMin (x :: xs) + b : ℤ) : ℚ)) /
            (((a * listMax (x :: xs) + b : ℤ) : ℚ) - ((a * listMin (x :: xs) + b : ℤ) : ℚ)) = _
        push_cast
        rw [show (a : ℚ) * z + b - ((a : ℚ) * listMin (x :: xs) + b) =
              (a : ℚ) * (z - listMin (x :: xs)) by ring,
            show (a : ℚ) * listMax (x :: xs) + b - ((a : ℚ) * listMin (x :: xs) + b) =
              (a : ℚ) * (listMax (x :: xs) - listMin (x :: xs)) by ring,
            mul_div_mul_left _ _ haq]
      · have hlt' : ¬ listMin ((x :: xs).map fun y => a * y + b) <
            listMax ((x :: xs).map fun y => a * y + b) := by
          rw [hmin, hmax, add_lt_add_iff_right, mul_lt_mul_left ha]
          exact hlt
        rw [im2double, im2double, if_neg hlt', if_neg hlt, List.map_map]
        rfl
  · have hconst : ¬ listMin (List.replicate k c) < listMax (List.replicate k c) := by
      match k with
      | 0 => exact lt_irrefl 0
      | Nat.succ k =>
        show ¬ (List.replicate k c).foldl min c < (List.replicate k c).foldl max c
        rw [foldl_min_replicate c k, foldl_max_replicate c k]
        exact lt_irrefl c
    rw [im2double, if_neg hconst, List.map_replicate]

/-- C9 (counterexample): the images `[0, 1]` and `[1, 0]` differ by the
affine re-encoding `x -> -1 * x + 1` (negation is an affine shift/scale),
yet their min-max-normalized representations differ — the claimed
invariance does not hold for every affine map, only for positive scales. -/
theorem im2double_affine_counterexample :
    ([1, 0] : List ℤ) = [0, 1].map (fun x => (-1) * x + 1) ∧
    im2double [1, 0] ≠ im2double [0, 1] := by
  refine ⟨by decide, ?_⟩
  have h1 : im2double [1, 0] = [1, 0] := by
    norm_num [im2double, listMin, listMax]
  have h2 : im2double [0, 1] = [0, 1] := by
    norm_num [im2double, listMin, listMax]
  rw [h1, h2]
  simp

/-- C9 (witness): min-max normalization is invariant under the concrete
positive-scale affine re-encoding `x -> 2 * x + 5` of the image `[0, 1]`. -/
theorem im2double_minmax_props_witness :
    (0 : ℤ) < 2 ∧ im2double ([0, 1].map fun x => 2 * x + 5) = im2double [0, 1] :=
  ⟨by decide, (im2double_minmax_props [0, 1] 2 5 (by decide) 0 0).2.1⟩

/-! KNN blending weights (lines 34-36, 105-111).

From the squared distances `D_sq`, the source computes
`dH = sqrt(D_sq[idH])`, `weightsH = exp(-(dH**2) / (2 * sigma**2))` and
normalizes `weightsH = weightsH / sum(weightsH)`, with the constants
`self.K = 25` and `self.sigma = 0.25`. -/

/-- Constant `self.K = 25` (line 35). -/
def K : ℕ := 25

/-- Constant `self.sigma = 0.25` (line 36). -/
noncomputable def sigma : ℝ := 0.25

/-- Embedding of `dH = np.sqrt(np.take_along_axis(D_sq, idH, axis=0))` (lines 107-108):
the distances of the selected neighbors, from their squared distances. -/
noncomputable def dH (Dsq : Fin K → ℝ) (k : Fin K) : ℝ := Real.sqrt (Dsq k)

/-- The unnormalized weights of lines 109-110:
`np.exp(-(np.power(dH, 2)) / (2 * np.power(self.sigma, 2)))`. -/
noncomputable def weightsHraw (Dsq : Fin K → ℝ) (k : Fin K) : ℝ :=
  Real.exp (-(dH Dsq k) ^ 2 / (2 * sigma ^ 2))

/-- The normalized blending weights of line 111:
`weightsH = weightsH / sum(weightsH)`. -/
noncomputable def weightsH (Dsq : Fin K → ℝ) (k : Fin K) : ℝ :=
  weightsHraw Dsq k / ∑ j, weightsHraw Dsq j

/-- C5: for every vector of `K = 25` squared neighbor distances, each
blending weight is `exp(-(d_k^2) / (2 * sigma^2))` (normalized by the
total), `sigma` is the fixed `0.25`, and the `K` weights sum to exactly 1
(the normalizer is a sum of strictly positive exponentials, hence
nonzero). -/
theorem weightsH_formula_and_sum (Dsq : Fin K → ℝ) :
    (∀ k, weightsH Dsq k =
      Real.exp (-(dH Dsq k) ^ 2 / (2 * sigma ^ 2)) /
        ∑ j, Real.exp (-(dH Dsq j) ^ 2 / (2 * sigma ^ 2))) ∧
    sigma = 0.25 ∧
    ∑ k, weightsH Dsq k = 1 := by
  have hpos : 0 < ∑ j, weightsHraw Dsq j :=
    Finset.sum_pos (fun j _ => Real.exp_pos _)
      ⟨⟨0, by norm_num [K]⟩, Finset.mem_univ _⟩
  refine ⟨fun k => rfl, rfl, ?_⟩
  unfold weightsH
  rw [← Finset.sum_div]
  exact div_self hpos.ne'
